import Mathlib

/-!
# Verification of the chapter-marker break-point algorithm

Shallow embedding of the pure core of `src/modded_cmthingy.py`:
the Candidate Cleaner (`clean_black_spaces`), the Break Selector
(`find_optimal_breaks`) and the chapter-document construction performed by
`write_chapters_to_video`.  Timestamps are modelled as rational numbers.
-/

namespace CMThingy

/-- A black-frame interval as produced by `detect_black_spaces`:
`{start, end, center}` with `center = (start+end)/2` at detection time
(the fields are stored independently, as in the Python dict). -/
structure BlackInterval where
  start : ℚ
  end_ : ℚ
  center : ℚ
  deriving DecidableEq, Repr

/-- A silence interval as produced by `detect_silence`. -/
structure SilenceInterval where
  start : ℚ
  end_ : ℚ
  center : ℚ
  duration : ℚ
  deriving DecidableEq, Repr

/-- A scene-cut instant as produced by `detect_scenes`. -/
structure SceneCut where
  timestamp : ℚ
  deriving DecidableEq, Repr

/-- The `type` tag of a break point (`"black"` or `"scene"` in the Python dict). -/
inductive BreakType where
  | black
  | scene
  deriving DecidableEq, Repr

/-- The `confidence` tag of a break point (`"high"` or `"medium"`). -/
inductive Confidence where
  | high
  | medium
  deriving DecidableEq, Repr

/-- A break point: `{"timestamp": ..., "type": ..., "confidence": ...}`. -/
structure BreakPoint where
  timestamp : ℚ
  type : BreakType
  confidence : Confidence
  deriving DecidableEq, Repr

instance : Inhabited BreakPoint := ⟨⟨0, BreakType.black, Confidence.high⟩⟩

/-- The comparison key used by both `sort` calls in `find_optimal_breaks`:
`key=lambda x: x["timestamp"]`, ascending. -/
def bpLE (a b : BreakPoint) : Prop := a.timestamp ≤ b.timestamp

instance : DecidableRel bpLE := fun a b =>
  inferInstanceAs (Decidable (a.timestamp ≤ b.timestamp))

instance : IsTotal BreakPoint bpLE := ⟨fun a b => le_total a.timestamp b.timestamp⟩

instance : IsTrans BreakPoint bpLE := ⟨fun _ _ _ h h' => le_trans h h'⟩

/-- Python's stable ascending `list.sort(key=lambda x: x["timestamp"])`. -/
def sortBreaks (l : List BreakPoint) : List BreakPoint := l.insertionSort bpLE

/-- The cleaner `clean_black_spaces(blacks, duration, start=20, end=10)`:
keeps `b` iff `b["start"] > start and b["end"] < duration - end`. -/
def clean_black_spaces (blacks : List BlackInterval) (duration : ℚ)
    (start : ℚ) (end_ : ℚ) : List BlackInterval :=
  blacks.filter fun b => decide (start < b.start) && decide (b.end_ < duration - end_)

/-- The seeding step of `find_optimal_breaks`: one high-confidence break per
black interval, at its `center`, then sorted ascending by timestamp. -/
def highBreaks (blacks : List BlackInterval) : List BreakPoint :=
  sortBreaks (blacks.map fun b => ⟨b.center, BreakType.black, Confidence.high⟩)

/-- The inner loop of the gap computation: for every adjacent pair in the
sorted break list, emit the pair as a gap iff its width exceeds `max_gap`. -/
def adjGaps (max_gap : ℚ) : List BreakPoint → List (ℚ × ℚ)
  | [] => []
  | [_] => []
  | a :: b :: rest =>
      (if max_gap < b.timestamp - a.timestamp
        then [(a.timestamp, b.timestamp)] else []) ++ adjGaps max_gap (b :: rest)

/-- The gap computation of `find_optimal_breaks` on the sorted seeded list
`filled`: leading gap `(0, filled[0])` iff `filled[0] > max_gap`, inter-break
gaps via `adjGaps`; `[(0, duration)]` when no high-confidence break exists. -/
def gapsOf (filled : List BreakPoint) (max_gap duration : ℚ) : List (ℚ × ℚ) :=
  match filled with
  | [] => [(0, duration)]
  | b :: rest =>
      (if max_gap < b.timestamp then [((0 : ℚ), b.timestamp)] else [])
        ++ adjGaps max_gap (b :: rest)

/-- The gap list computed inside `find_optimal_breaks` for a given black list
and `max_gap_minutes` parameter (the code multiplies the parameter by 60). -/
def selectorGaps (duration : ℚ) (blacks : List BlackInterval)
    (max_gap_minutes : ℚ) : List (ℚ × ℚ) :=
  gapsOf (highBreaks blacks) (max_gap_minutes * 60) duration

/-- The candidate filter of the gap-filling loop:
`[s for s in scenes if gstart + 30 < s["timestamp"] < gend - 30]`. -/
def candidatesOf (scenes : List SceneCut) (g : ℚ × ℚ) : List SceneCut :=
  scenes.filter fun s =>
    decide (g.1 + 30 < s.timestamp) && decide (s.timestamp < g.2 - 30)

/-- Python's `min(xs, key=f)` on a non-empty list `x :: l`: scan keeping the
current best, replacing it only on a strictly smaller key, so the first
element achieving the minimum key is returned. -/
def minByKey {α : Type} (f : α → ℚ) (x : α) (l : List α) : α :=
  l.foldl (fun b a => if f a < f b then a else b) x

/-- One iteration of the gap-filling loop of `find_optimal_breaks`: the
candidates strictly inside the gap minus 30-second margins; if any exist, the
one closest to the gap midpoint (first on ties) becomes a medium break. -/
def fillGap (scenes : List SceneCut) (g : ℚ × ℚ) : Option BreakPoint :=
  match candidatesOf scenes g with
  | [] => none
  | c :: cs =>
      some ⟨(minByKey (fun s => |s.timestamp - (g.1 + g.2) / 2|) c cs).timestamp,
            BreakType.scene, Confidence.medium⟩

/-- The selector `find_optimal_breaks(duration, blacks, silences, scenes, max_gap_minutes=12)`:
seed high-confidence breaks from black centers, sort, compute coverage gaps
with threshold `max_gap_minutes * 60`, fill each gap that has a qualifying
scene-cut candidate, and return the merged list sorted by timestamp.
The `silences` argument is accepted but never consulted. -/
def find_optimal_breaks (duration : ℚ) (blacks : List BlackInterval)
    (_silences : List SilenceInterval) (scenes : List SceneCut)
    (max_gap_minutes : ℚ) : List BreakPoint :=
  let breaks := highBreaks blacks
  let gaps := gapsOf breaks (max_gap_minutes * 60) duration
  sortBreaks (breaks ++ gaps.filterMap (fillGap scenes))

/-- The pure slice of `process_video`: clean the blacks with the default
margins (20, 10), then run the selector, forwarding the CLI `max_gap`
value (an integer number of minutes, default 12) unchanged. -/
def process_breaks (duration : ℚ) (blacks : List BlackInterval)
    (silences : List SilenceInterval) (scenes : List SceneCut)
    (max_gap : ℚ) : List BreakPoint :=
  find_optimal_breaks duration (clean_black_spaces blacks duration 20 10)
    silences scenes max_gap

/-- Python's `int(q)` on a rational: truncation toward zero. -/
def pyInt (q : ℚ) : ℤ := if 0 ≤ q then ⌊q⌋ else -⌊-q⌋

/-- One chapter record of the ffmetadata document: `START`/`END` in
milliseconds (`TIMEBASE=1/1000`) and the `title` line. -/
structure Chapter where
  start : ℤ
  end_ : ℤ
  title : String
  deriving DecidableEq, Repr

instance : Inhabited Chapter := ⟨⟨0, 0, ""⟩⟩

/-- The chapter-emitting loop of `write_chapters_to_video`: `prev` is the
previous break's timestamp (0 initially), `i` the 1-based chapter counter;
after the loop one final chapter from `prev` to `duration` is written. -/
def chaptersGo (duration : ℚ) (prev : ℚ) (i : ℕ) :
    List BreakPoint → List Chapter
  | [] => [⟨pyInt (prev * 1000), pyInt (duration * 1000),
            "Chapter " ++ toString i⟩]
  | bp :: rest =>
      ⟨pyInt (prev * 1000), pyInt (bp.timestamp * 1000),
        "Chapter " ++ toString i⟩ :: chaptersGo duration bp.timestamp (i + 1) rest

/-- The chapter document written by `write_chapters_to_video` for a given
break list and duration. -/
def buildChapterDocument (break_points : List BreakPoint) (duration : ℚ) :
    List Chapter :=
  chaptersGo duration 0 1 break_points

/-! ## Basic lemmas about the embedded operations -/

theorem mem_sortBreaks {l : List BreakPoint} {x : BreakPoint} :
    x ∈ sortBreaks l ↔ x ∈ l :=
  List.mem_insertionSort bpLE

theorem sorted_sortBreaks (l : List BreakPoint) : (sortBreaks l).Sorted bpLE :=
  List.sorted_insertionSort bpLE l

theorem perm_sortBreaks (l : List BreakPoint) : List.Perm (sortBreaks l) l :=
  List.perm_insertionSort bpLE l

theorem mem_highBreaks {blacks : List BlackInterval} {bp : BreakPoint} :
    bp ∈ highBreaks blacks ↔
      ∃ b ∈ blacks, bp = ⟨b.center, BreakType.black, Confidence.high⟩ := by
  simp only [highBreaks, mem_sortBreaks, List.mem_map]
  constructor
  · rintro ⟨b, hb, rfl⟩; exact ⟨b, hb, rfl⟩
  · rintro ⟨b, hb, rfl⟩; exact ⟨b, hb, rfl⟩

theorem confidence_of_mem_highBreaks {blacks : List BlackInterval}
    {bp : BreakPoint} (h : bp ∈ highBreaks blacks) :
    bp.confidence = Confidence.high := by
  obtain ⟨b, _, rfl⟩ := mem_highBreaks.mp h
  rfl

theorem mem_candidatesOf {scenes : List SceneCut} {g : ℚ × ℚ} {s : SceneCut} :
    s ∈ candidatesOf scenes g ↔
      s ∈ scenes ∧ g.1 + 30 < s.timestamp ∧ s.timestamp < g.2 - 30 := by
  simp [candidatesOf, List.mem_filter, and_assoc]

/-- The function `minByKey` returns the first element of `x :: l` achieving the minimum
key: the list splits as `l1 ++ result :: l2` with the result's key minimal
over the whole list and strictly below every key in the prefix `l1`. -/
theorem minByKey_spec {α : Type} (f : α → ℚ) :
    ∀ (l : List α) (x : α),
      ∃ l1 l2, x :: l = l1 ++ minByKey f x l :: l2 ∧
        (∀ a ∈ x :: l, f (minByKey f x l) ≤ f a) ∧
        (∀ a ∈ l1, f (minByKey f x l) < f a)
  | [], x =>
      ⟨[], [], rfl, by simp [minByKey], by simp⟩
  | a :: t, x => by
      have hstep : minByKey f x (a :: t)
          = minByKey f (if f a < f x then a else x) t := rfl
      by_cases h : f a < f x
      · rw [if_pos h] at hstep
        obtain ⟨l1, l2, heq, hmin, hstrict⟩ := minByKey_spec f t a
        rw [hstep]
        generalize hR : minByKey f a t = r at heq hmin hstrict ⊢
        refine ⟨x :: l1, l2, ?_, ?_, ?_⟩
        · simpa [List.cons_append] using congrArg (List.cons x) heq
        · intro b hb
          rcases List.mem_cons.mp hb with rfl | hb
          · exact le_of_lt (lt_of_le_of_lt (hmin a (List.mem_cons_self a t)) h)
          · exact hmin b hb
        · intro b hb
          rcases List.mem_cons.mp hb with rfl | hb
          · exact lt_of_le_of_lt (hmin a (List.mem_cons_self a t)) h
          · exact hstrict b hb
      · rw [if_neg h] at hstep
        have hxa : f x ≤ f a := le_of_not_lt h
        obtain ⟨l1, l2, heq, hmin, hstrict⟩ := minByKey_spec f t x
        rw [hstep]
        generalize hR : minByKey f x t = r at heq hmin hstrict ⊢
        cases l1 with
        | nil =>
            simp only [List.nil_append] at heq
            injection heq with hx ht
            refine ⟨[], a :: t, ?_, ?_, by simp⟩
            · rw [List.nil_append, ← hx]
            · intro b hb
              rcases List.mem_cons.mp hb with rfl | hb
              · exact hmin b (List.mem_cons_self b t)
              · rcases List.mem_cons.mp hb with rfl | hb
                · exact le_trans (le_of_eq (congrArg f hx.symm)) hxa
                · exact hmin b (List.mem_cons_of_mem x hb)
        | cons z l1' =>
            rw [List.cons_append] at heq
            injection heq with hx ht
            have hzx : f r < f x := by
              rw [hx]; exact hstrict z (List.mem_cons_self z l1')
            refine ⟨x :: a :: l1', l2, ?_, ?_, ?_⟩
            · rw [ht]; simp [List.cons_append]
            · intro b hb
              rcases List.mem_cons.mp hb with rfl | hb
              · exact hmin b (List.mem_cons_self b t)
              · rcases List.mem_cons.mp hb with rfl | hb
                · exact le_trans (le_of_lt hzx) hxa
                · exact hmin b (List.mem_cons_of_mem x hb)
            · intro b hb
              rcases List.mem_cons.mp hb with rfl | hb
              · exact hzx
              · rcases List.mem_cons.mp hb with rfl | hb
                · exact lt_of_lt_of_le hzx hxa
                · exact hstrict b (List.mem_cons_of_mem z hb)

theorem fillGap_eq_none {scenes : List SceneCut} {g : ℚ × ℚ}
    (h : candidatesOf scenes g = []) : fillGap scenes g = none := by
  simp [fillGap, h]

/-- When candidates exist, `fillGap` picks the first candidate of minimal
distance to the gap midpoint and wraps it as a medium scene break. -/
theorem fillGap_spec {scenes : List SceneCut} {g : ℚ × ℚ} {c0 : SceneCut}
    {cs : List SceneCut} (h : candidatesOf scenes g = c0 :: cs) :
    ∃ c l1 l2, candidatesOf scenes g = l1 ++ c :: l2 ∧
      fillGap scenes g = some ⟨c.timestamp, BreakType.scene, Confidence.medium⟩ ∧
      (∀ s ∈ candidatesOf scenes g,
        |c.timestamp - (g.1 + g.2) / 2| ≤ |s.timestamp - (g.1 + g.2) / 2|) ∧
      (∀ s ∈ l1,
        |c.timestamp - (g.1 + g.2) / 2| < |s.timestamp - (g.1 + g.2) / 2|) := by
  obtain ⟨l1, l2, heq, hmin, hstrict⟩ :=
    minByKey_spec (fun s => |s.timestamp - (g.1 + g.2) / 2|) cs c0
  refine ⟨minByKey (fun s => |s.timestamp - (g.1 + g.2) / 2|) c0 cs, l1, l2,
    by rw [h, heq], ?_, ?_, hstrict⟩
  · simp [fillGap, h]
  · intro s hs
    exact hmin s (by rw [h] at hs; exact hs)

theorem fillGap_some_bounds {scenes : List SceneCut} {g : ℚ × ℚ}
    {bp : BreakPoint} (h : fillGap scenes g = some bp) :
    bp.confidence = Confidence.medium ∧ bp.type = BreakType.scene ∧
      ∃ s ∈ scenes, bp.timestamp = s.timestamp ∧
        g.1 + 30 < s.timestamp ∧ s.timestamp < g.2 - 30 := by
  cases hc : candidatesOf scenes g with
  | nil => rw [fillGap_eq_none hc] at h; cases h
  | cons c0 cs =>
      obtain ⟨c, l1, l2, heq, hfill, hmin, hstrict⟩ := fillGap_spec hc
      rw [hfill] at h
      have hbp : bp = ⟨c.timestamp, BreakType.scene, Confidence.medium⟩ :=
        (Option.some.inj h).symm
      have hcmem : c ∈ candidatesOf scenes g := by
        rw [heq]
        exact List.mem_append_right l1 (List.mem_cons_self c l2)
      obtain ⟨hs, h1, h2⟩ := mem_candidatesOf.mp hcmem
      subst hbp
      exact ⟨rfl, rfl, c, hs, rfl, h1, h2⟩

/-- Membership in the Break Selector's output: a break is either one of the
seeded high-confidence black breaks or the fill of one of the coverage gaps. -/
theorem mem_find_optimal_breaks {duration : ℚ} {blacks : List BlackInterval}
    {silences : List SilenceInterval} {scenes : List SceneCut}
    {max_gap_minutes : ℚ} {bp : BreakPoint} :
    bp ∈ find_optimal_breaks duration blacks silences scenes max_gap_minutes ↔
      bp ∈ highBreaks blacks ∨
        ∃ g ∈ selectorGaps duration blacks max_gap_minutes,
          fillGap scenes g = some bp := by
  simp [find_optimal_breaks, selectorGaps, mem_sortBreaks,
    List.mem_append, List.mem_filterMap]

/-- Membership characterization of the inter-break gap loop: exactly the
adjacent pairs of the list whose width exceeds `max_gap`. -/
theorem mem_adjGaps {mg : ℚ} :
    ∀ {l : List BreakPoint} {g : ℚ × ℚ},
      g ∈ adjGaps mg l ↔
        ∃ l1 prev next l2, l = l1 ++ prev :: next :: l2 ∧
          g = (prev.timestamp, next.timestamp) ∧
          mg < next.timestamp - prev.timestamp := by
  intro l
  induction l with
  | nil =>
      intro g
      simp only [adjGaps, List.not_mem_nil, false_iff]
      rintro ⟨l1, prev, next, l2, heq, -, -⟩
      cases l1 <;> simp at heq
  | cons a t ih =>
      intro g
      cases t with
      | nil =>
          simp only [adjGaps, List.not_mem_nil, false_iff]
          rintro ⟨l1, prev, next, l2, heq, -, -⟩
          cases l1 with
          | nil => simp at heq
          | cons z l1' =>
              rw [List.cons_append] at heq
              injection heq with _ ht
              cases l1' <;> simp at ht
      | cons b t' =>
          constructor
          · intro hg
            rcases List.mem_append.mp hg with hmem | hmem
            · by_cases hlt : mg < b.timestamp - a.timestamp
              · rw [if_pos hlt] at hmem
                obtain rfl := List.mem_singleton.mp hmem
                exact ⟨[], a, b, t', rfl, rfl, hlt⟩
              · rw [if_neg hlt] at hmem
                cases hmem
            · obtain ⟨l1, prev, next, l2, heq, hgeq, hlt⟩ := ih.mp hmem
              exact ⟨a :: l1, prev, next, l2, by rw [List.cons_append, heq],
                hgeq, hlt⟩
          · rintro ⟨l1, prev, next, l2, heq, rfl, hlt⟩
            cases l1 with
            | nil =>
                simp only [List.nil_append] at heq
                injection heq with h1 heq'
                injection heq' with h2 h3
                subst h1
                subst h2
                subst h3
                refine List.mem_append_left _ ?_
                rw [if_pos hlt]
                exact List.mem_singleton.mpr rfl
            | cons z l1' =>
                rw [List.cons_append] at heq
                injection heq with h1 ht
                subst h1
                exact List.mem_append_right _
                  (ih.mpr ⟨l1', prev, next, l2, ht, rfl, hlt⟩)

/-- Gap membership for a non-empty sorted break list: the leading gap under
its threshold condition, or an adjacent pair exceeding the threshold. -/
theorem mem_gapsOf_cons {mg duration : ℚ} {b0 : BreakPoint}
    {rest : List BreakPoint} {g : ℚ × ℚ} :
    g ∈ gapsOf (b0 :: rest) mg duration ↔
      (g = (0, b0.timestamp) ∧ mg < b0.timestamp) ∨
        ∃ l1 prev next l2, b0 :: rest = l1 ++ prev :: next :: l2 ∧
          g = (prev.timestamp, next.timestamp) ∧
          mg < next.timestamp - prev.timestamp := by
  simp only [gapsOf, List.mem_append]
  constructor
  · rintro (hmem | hmem)
    · by_cases hlt : mg < b0.timestamp
      · rw [if_pos hlt] at hmem
        exact Or.inl ⟨List.mem_singleton.mp hmem, hlt⟩
      · rw [if_neg hlt] at hmem
        cases hmem
    · exact Or.inr (mem_adjGaps.mp hmem)
  · rintro (⟨rfl, hlt⟩ | h)
    · exact Or.inl (by rw [if_pos hlt]; exact List.mem_singleton.mpr rfl)
    · exact Or.inr (mem_adjGaps.mpr h)

theorem mem_of_getLast_some {α : Type} :
    ∀ {l : List α} {m : α}, l.getLast? = some m → m ∈ l
  | [], _, h => by cases h
  | [a], m, h => by
      simp only [List.getLast?_singleton] at h
      exact (Option.some.inj h) ▸ List.mem_singleton.mpr rfl
  | _ :: b :: t, m, h => by
      rw [List.getLast?_cons_cons] at h
      exact List.mem_cons_of_mem _ (mem_of_getLast_some h)

/-- In a list sorted ascending by timestamp, the last element has the
largest timestamp. -/
theorem sorted_le_getLast :
    ∀ {l : List BreakPoint} {m : BreakPoint}, l.Sorted bpLE →
      l.getLast? = some m → ∀ x ∈ l, x.timestamp ≤ m.timestamp
  | [], _, _, h => by cases h
  | [a], m, _, h => by
      simp only [List.getLast?_singleton] at h
      intro x hx
      obtain rfl := List.mem_singleton.mp hx
      exact le_of_eq (congrArg BreakPoint.timestamp (Option.some.inj h))
  | a :: b :: t, m, hs, h => by
      rw [List.getLast?_cons_cons] at h
      intro x hx
      rcases List.mem_cons.mp hx with rfl | hx'
      · exact List.rel_of_sorted_cons hs m (mem_of_getLast_some h)
      · exact sorted_le_getLast hs.of_cons h x hx'

theorem gapsOf_nil (mg duration : ℚ) : gapsOf [] mg duration = [(0, duration)] :=
  rfl

/-- The right endpoint of every gap over a non-empty break list is the
timestamp of one of the breaks. -/
theorem gap_right_endpoint {mg duration : ℚ} {l : List BreakPoint}
    {g : ℚ × ℚ} (hne : l ≠ []) (hg : g ∈ gapsOf l mg duration) :
    ∃ m ∈ l, g.2 = m.timestamp := by
  cases l with
  | nil => exact absurd rfl hne
  | cons b0 rest =>
      rcases mem_gapsOf_cons.mp hg with ⟨rfl, -⟩ | ⟨l1, prev, next, l2, heq, rfl, -⟩
      · exact ⟨b0, List.mem_cons_self b0 rest, rfl⟩
      · refine ⟨next, ?_, rfl⟩
        rw [heq]
        exact List.mem_append_right l1
          (List.mem_cons_of_mem prev (List.mem_cons_self next l2))

/-- The left endpoint of every gap is 0 or the timestamp of a break. -/
theorem gap_left_endpoint {mg duration : ℚ} {l : List BreakPoint}
    {g : ℚ × ℚ} (hg : g ∈ gapsOf l mg duration) :
    g.1 = 0 ∨ ∃ m ∈ l, g.1 = m.timestamp := by
  cases l with
  | nil =>
      left
      have hgd : g = (0, duration) := List.mem_singleton.mp hg
      rw [hgd]
  | cons b0 rest =>
      rcases mem_gapsOf_cons.mp hg with ⟨rfl, -⟩ | ⟨l1, prev, next, l2, heq, rfl, -⟩
      · exact Or.inl rfl
      · refine Or.inr ⟨prev, ?_, rfl⟩
        rw [heq]
        exact List.mem_append_right l1 (List.mem_cons_self prev (next :: l2))

theorem chaptersGo_length (duration : ℚ) :
    ∀ (l : List BreakPoint) (prev : ℚ) (i : ℕ),
      (chaptersGo duration prev i l).length = l.length + 1
  | [], _, _ => rfl
  | bp :: rest, prev, i => by
      simp only [chaptersGo, List.length_cons, List.length]
      rw [chaptersGo_length duration rest bp.timestamp (i + 1)]

/-- Pointwise description of the chapter loop: the `j`-th chapter starts at
the `j`-th element of `prev :: timestamps`, ends at the `j`-th element of
`timestamps ++ [duration]`, and is titled with the running counter. -/
theorem chaptersGo_getD (duration : ℚ) :
    ∀ (l : List BreakPoint) (prev : ℚ) (i j : ℕ), j ≤ l.length →
      (chaptersGo duration prev i l).getD j default =
        ⟨pyInt ((prev :: l.map BreakPoint.timestamp).getD j 0 * 1000),
         pyInt ((l.map BreakPoint.timestamp ++ [duration]).getD j 0 * 1000),
         "Chapter " ++ toString (i + j)⟩
  | [], _, _, 0, _ => by simp [chaptersGo]
  | [], _, _, j + 1, h => absurd h (by simp)
  | bp :: rest, prev, i, 0, _ => by simp [chaptersGo]
  | bp :: rest, prev, i, j + 1, h => by
      have h' : j ≤ rest.length := by
        simpa using Nat.succ_le_succ_iff.mp (by simpa using h)
      simp only [chaptersGo, List.getD_cons_succ, List.map_cons,
        List.cons_append]
      rw [chaptersGo_getD duration rest bp.timestamp (i + 1) j h']
      have hij : i + 1 + j = i + (j + 1) := by omega
      rw [hij]

/-! ## The claims -/

/-- C9: the Break Selector's output does not depend on its silence-interval
argument: any two silence lists give identical results, all other arguments
being equal. -/
theorem C9_silences_unused (duration : ℚ) (blacks : List BlackInterval)
    (s1 s2 : List SilenceInterval) (scenes : List SceneCut)
    (max_gap_minutes : ℚ) :
    find_optimal_breaks duration blacks s1 scenes max_gap_minutes
      = find_optimal_breaks duration blacks s2 scenes max_gap_minutes := rfl

/-- C4: for all inputs the Break Selector's output is sorted non-decreasing
by timestamp, and it is a permutation of the seeded high-confidence breaks
together with the gap fills (ties are kept, nothing is deduplicated). -/
theorem C4_output_sorted (duration max_gap_minutes : ℚ)
    (blacks : List BlackInterval) (silences : List SilenceInterval)
    (scenes : List SceneCut) :
    (find_optimal_breaks duration blacks silences scenes
        max_gap_minutes).Sorted (fun a b => a.timestamp ≤ b.timestamp) ∧
      List.Perm
        (find_optimal_breaks duration blacks silences scenes max_gap_minutes)
        (highBreaks blacks ++
          (selectorGaps duration blacks max_gap_minutes).filterMap
            (fillGap scenes)) :=
  ⟨sorted_sortBreaks _, perm_sortBreaks _⟩

/-- C7: the Candidate Cleaner returns exactly the in-order subsequence of
intervals with `start` strictly above the start margin and `end` strictly
below `duration` minus the end margin; if every interval fails the test the
result is the empty list (the function is total, it never raises). -/
theorem C7_clean_filter (blacks : List BlackInterval)
    (duration startMargin endMargin : ℚ) :
    (clean_black_spaces blacks duration startMargin endMargin).Sublist
        blacks ∧
      (∀ b, b ∈ clean_black_spaces blacks duration startMargin endMargin ↔
        b ∈ blacks ∧ startMargin < b.start ∧
          b.end_ < duration - endMargin) ∧
      ((∀ b ∈ blacks,
          ¬(startMargin < b.start ∧ b.end_ < duration - endMargin)) →
        clean_black_spaces blacks duration startMargin endMargin = []) := by
  refine ⟨List.filter_sublist blacks, ?_, ?_⟩
  · intro b
    simp [clean_black_spaces, List.mem_filter, and_assoc]
  · intro h
    apply List.eq_nil_iff_forall_not_mem.mpr
    intro b hb
    simp only [clean_black_spaces, List.mem_filter, Bool.and_eq_true,
      decide_eq_true_eq] at hb
    exact h b hb.1 ⟨hb.2.1, hb.2.2⟩

/-- Witness for C7: an interval starting at 5 fails the default start
margin 20, so the cleaned list is empty. -/
theorem C7_clean_filter_witness :
    clean_black_spaces [⟨5, 6, (11 : ℚ)/2⟩] 100 20 10 = [] :=
  (C7_clean_filter [⟨5, 6, (11 : ℚ)/2⟩] 100 20 10).2.2 (by decide)

/-- C2: every medium-confidence break in the Break Selector's output arises
from a coverage gap `(gStart, gEnd)` and satisfies the strict inequalities
`gStart + 30 < timestamp < gEnd - 30`; a gap with no scene cut strictly
inside those margins contributes no break at all. -/
theorem C2_gap_margins (duration max_gap_minutes : ℚ)
    (blacks : List BlackInterval) (silences : List SilenceInterval)
    (scenes : List SceneCut) :
    (∀ bp ∈ find_optimal_breaks duration blacks silences scenes
        max_gap_minutes,
      bp.confidence = Confidence.medium →
        ∃ g ∈ selectorGaps duration blacks max_gap_minutes,
          fillGap scenes g = some bp ∧
            g.1 + 30 < bp.timestamp ∧ bp.timestamp < g.2 - 30) ∧
      ∀ g : ℚ × ℚ,
        (∀ s ∈ scenes,
          ¬(g.1 + 30 < s.timestamp ∧ s.timestamp < g.2 - 30)) →
        fillGap scenes g = none := by
  constructor
  · intro bp hbp hconf
    rcases mem_find_optimal_breaks.mp hbp with hhigh | ⟨g, hg, hfill⟩
    · rw [confidence_of_mem_highBreaks hhigh] at hconf
      cases hconf
    · obtain ⟨-, -, s, -, hts, h1, h2⟩ := fillGap_some_bounds hfill
      exact ⟨g, hg, hfill, hts ▸ h1, hts ▸ h2⟩
  · intro g hnone
    apply fillGap_eq_none
    apply List.eq_nil_iff_forall_not_mem.mpr
    intro s hs
    obtain ⟨hmem, h1, h2⟩ := mem_candidatesOf.mp hs
    exact hnone s hmem ⟨h1, h2⟩

/-- Witness for C2: with no blacks, duration 100 and one scene at 50, the
selector emits the medium break at 50, which some gap covers with strict
30-second margins; and a gap admitting no qualifying scene cut yields no
break. -/
theorem C2_gap_margins_witness :
    (∃ g ∈ selectorGaps 100 ([] : List BlackInterval) 1,
      fillGap [⟨50⟩] g
          = some ⟨50, BreakType.scene, Confidence.medium⟩ ∧
        g.1 + 30 < (50 : ℚ) ∧ (50 : ℚ) < g.2 - 30) ∧
      fillGap [⟨50⟩] ((200 : ℚ), (210 : ℚ)) = none :=
  ⟨(C2_gap_margins 100 1 [] [] [⟨50⟩]).1
      ⟨50, BreakType.scene, Confidence.medium⟩
      (by
        norm_num [find_optimal_breaks, highBreaks, sortBreaks, gapsOf,
          adjGaps, candidatesOf, fillGap, minByKey, selectorGaps,
          List.insertionSort, List.orderedInsert, List.filterMap,
          List.filter])
      rfl,
    (C2_gap_margins 100 1 [] [] [⟨50⟩]).2 (200, 210)
      (by
        intro s hs
        rw [List.mem_singleton] at hs
        subst hs
        norm_num)⟩

/-- Counterexample to C3 as stated: the Break Selector does not validate its
inputs, so a black interval whose center exceeds the duration yields an
output break with timestamp 300 on a video of duration 100. -/
theorem C3_counterexample :
    find_optimal_breaks 100 [⟨0, 600, 300⟩] [] [] 12
        = [⟨300, BreakType.black, Confidence.high⟩] ∧
      ¬((300 : ℚ) ≤ 100) := by
  constructor
  · norm_num [find_optimal_breaks, highBreaks, sortBreaks, gapsOf, adjGaps,
      candidatesOf, fillGap, minByKey, selectorGaps, List.insertionSort,
      List.orderedInsert, List.filterMap, List.filter]
  · norm_num

/-- C3 (amended): if every black interval's center lies in `[0, duration]`,
then every break in the Break Selector's output has its timestamp in
`[0, duration]` (scene-cut fills are constrained by the gap margins, so no
hypothesis on `scenes` is needed). -/
theorem C3_timestamps_in_range (duration max_gap_minutes : ℚ)
    (blacks : List BlackInterval) (silences : List SilenceInterval)
    (scenes : List SceneCut)
    (hc : ∀ b ∈ blacks, 0 ≤ b.center ∧ b.center ≤ duration) :
    ∀ bp ∈ find_optimal_breaks duration blacks silences scenes
        max_gap_minutes,
      0 ≤ bp.timestamp ∧ bp.timestamp ≤ duration := by
  have hts : ∀ m ∈ highBreaks blacks, 0 ≤ m.timestamp ∧ m.timestamp ≤ duration := by
    intro m hm
    obtain ⟨b, hb, rfl⟩ := mem_highBreaks.mp hm
    exact hc b hb
  intro bp hbp
  rcases mem_find_optimal_breaks.mp hbp with hhigh | ⟨g, hg, hfill⟩
  · exact hts bp hhigh
  · obtain ⟨-, -, s, -, hts', h1, h2⟩ := fillGap_some_bounds hfill
    have hleft : 0 ≤ g.1 := by
      rcases gap_left_endpoint hg with h0 | ⟨m, hm, hge⟩
      · rw [h0]
      · rw [hge]
        exact (hts m hm).1
    have hright : g.2 ≤ duration := by
      simp only [selectorGaps] at hg
      cases hhb : highBreaks blacks with
      | nil =>
          rw [hhb, gapsOf_nil] at hg
          rw [List.mem_singleton.mp hg]
      | cons b0 rest =>
          rw [hhb] at hg
          obtain ⟨m, hm, hge⟩ :=
            gap_right_endpoint (List.cons_ne_nil b0 rest) hg
          rw [hge]
          exact (hts m (hhb ▸ hm)).2
    rw [hts']
    constructor
    · linarith
    · linarith

/-- Witness for C3 (amended): one black interval centered at 50 inside a
100-second video; the single output break at 50 lies in `[0, 100]`. -/
theorem C3_timestamps_in_range_witness :
    (∀ b ∈ [(⟨40, 60, 50⟩ : BlackInterval)], 0 ≤ b.center ∧ b.center ≤ (100 : ℚ)) ∧
      (0 ≤ (50 : ℚ) ∧ (50 : ℚ) ≤ 100) :=
  ⟨by
    intro b hb
    rw [List.mem_singleton] at hb
    subst hb
    norm_num,
    C3_timestamps_in_range 100 12 [⟨40, 60, 50⟩] [] []
      (by
        intro b hb
        rw [List.mem_singleton] at hb
        subst hb
        norm_num)
      ⟨50, BreakType.black, Confidence.high⟩
      (by
        norm_num [find_optimal_breaks, highBreaks, sortBreaks, gapsOf,
          adjGaps, candidatesOf, fillGap, minByKey, selectorGaps,
          List.insertionSort, List.orderedInsert, List.filterMap,
          List.filter])⟩

/-- C5: when at least one high-confidence break exists, every
medium-confidence break in the output has timestamp strictly below the
timestamp of the last high-confidence break, for every duration (no trailing
break is ever synthesized). -/
theorem C5_no_trailing_break (duration max_gap_minutes : ℚ)
    (blacks : List BlackInterval) (silences : List SilenceInterval)
    (scenes : List SceneCut) (lastBp : BreakPoint)
    (hlast : (highBreaks blacks).getLast? = some lastBp) :
    ∀ bp ∈ find_optimal_breaks duration blacks silences scenes
        max_gap_minutes,
      bp.confidence = Confidence.medium →
        bp.timestamp < lastBp.timestamp := by
  intro bp hbp hconf
  rcases mem_find_optimal_breaks.mp hbp with hhigh | ⟨g, hg, hfill⟩
  · rw [confidence_of_mem_highBreaks hhigh] at hconf
    cases hconf
  · obtain ⟨-, -, s, -, hts, h1, h2⟩ := fillGap_some_bounds hfill
    have hsorted : (highBreaks blacks).Sorted bpLE := by
      simp only [highBreaks]
      exact sorted_sortBreaks _
    simp only [selectorGaps] at hg
    cases hhb : highBreaks blacks with
    | nil =>
        rw [hhb, List.getLast?_nil] at hlast
        exact Option.noConfusion hlast
    | cons b0 rest =>
        rw [hhb] at hg
        obtain ⟨m, hm, hge⟩ :=
          gap_right_endpoint (List.cons_ne_nil b0 rest) hg
        have hmle : m.timestamp ≤ lastBp.timestamp :=
          sorted_le_getLast hsorted hlast m (hhb ▸ hm)
        rw [hge] at h2
        rw [hts]
        linarith

/-- Witness for C5: blacks centered at 50 and 1000, a scene at 500 filling
the inter-break gap; the medium break 500 is strictly below 1000. -/
theorem C5_no_trailing_break_witness :
    ((highBreaks [⟨40, 60, 50⟩, ⟨990, 1010, 1000⟩]).getLast?
        = some ⟨1000, BreakType.black, Confidence.high⟩) ∧
      (500 : ℚ) < 1000 :=
  ⟨by
    norm_num [highBreaks, sortBreaks, bpLE, List.insertionSort,
      List.orderedInsert, List.getLast?],
    C5_no_trailing_break 2000 1 [⟨40, 60, 50⟩, ⟨990, 1010, 1000⟩] []
      [⟨500⟩] ⟨1000, BreakType.black, Confidence.high⟩
      (by
        norm_num [highBreaks, sortBreaks, bpLE, List.insertionSort,
          List.orderedInsert, List.getLast?])
      ⟨500, BreakType.scene, Confidence.medium⟩
      (by
        norm_num [find_optimal_breaks, highBreaks, sortBreaks, gapsOf,
          adjGaps, candidatesOf, fillGap, minByKey, selectorGaps, bpLE,
          List.insertionSort, List.orderedInsert, List.filterMap,
          List.filter])
      rfl⟩

/-- C6: the selector's output is the sorted merge of the seeds and of
exactly one fill per gap, and for every gap with at least one qualifying
candidate the fill's timestamp is a candidate timestamp of minimal distance
to the gap midpoint, the earliest such candidate in input order on ties. -/
theorem C6_closest_candidate (duration max_gap_minutes : ℚ)
    (blacks : List BlackInterval) (silences : List SilenceInterval)
    (scenes : List SceneCut) :
    find_optimal_breaks duration blacks silences scenes max_gap_minutes
        = sortBreaks (highBreaks blacks ++
            (selectorGaps duration blacks max_gap_minutes).filterMap
              (fillGap scenes)) ∧
      ∀ g ∈ selectorGaps duration blacks max_gap_minutes,
        candidatesOf scenes g ≠ [] →
          ∃ c l1 l2, candidatesOf scenes g = l1 ++ c :: l2 ∧
            fillGap scenes g
                = some ⟨c.timestamp, BreakType.scene, Confidence.medium⟩ ∧
              (∀ s ∈ candidatesOf scenes g,
                |c.timestamp - (g.1 + g.2) / 2|
                  ≤ |s.timestamp - (g.1 + g.2) / 2|) ∧
              (∀ s ∈ l1,
                |c.timestamp - (g.1 + g.2) / 2|
                  < |s.timestamp - (g.1 + g.2) / 2|) := by
  refine ⟨rfl, ?_⟩
  intro g _ hne
  obtain ⟨c0, cs, hc⟩ := List.exists_cons_of_ne_nil hne
  obtain ⟨c, l1, l2, heq, hfill, hmin, hstrict⟩ := fillGap_spec hc
  exact ⟨c, l1, l2, heq, hfill, hmin, hstrict⟩

/-- Witness for C6: scenes at 40 and 60 are both at distance 10 from the
midpoint 50 of gap (0, 100); the earliest (40) is chosen. -/
theorem C6_closest_candidate_witness :
    (∃ c l1 l2,
      candidatesOf [⟨40⟩, ⟨60⟩] ((0 : ℚ), (100 : ℚ)) = l1 ++ c :: l2 ∧
        fillGap [⟨40⟩, ⟨60⟩] (0, 100)
            = some ⟨c.timestamp, BreakType.scene, Confidence.medium⟩ ∧
          (∀ s ∈ candidatesOf [⟨40⟩, ⟨60⟩] ((0 : ℚ), (100 : ℚ)),
            |c.timestamp - (0 + 100) / 2| ≤ |s.timestamp - (0 + 100) / 2|) ∧
          (∀ s ∈ l1,
            |c.timestamp - (0 + 100) / 2| < |s.timestamp - (0 + 100) / 2|)) ∧
      fillGap [⟨40⟩, ⟨60⟩] (0, 100)
        = some ⟨40, BreakType.scene, Confidence.medium⟩ :=
  ⟨(C6_closest_candidate 100 1 [] [] [⟨40⟩, ⟨60⟩]).2 (0, 100)
      (by
        norm_num [selectorGaps, highBreaks, sortBreaks, gapsOf,
          List.insertionSort])
      (by
        have hcand : candidatesOf [⟨40⟩, ⟨60⟩] ((0 : ℚ), (100 : ℚ))
            = [⟨40⟩, ⟨60⟩] := by
          norm_num [candidatesOf, List.filter]
        rw [hcand]
        exact List.cons_ne_nil _ _),
    by norm_num [fillGap, candidatesOf, minByKey, List.filter]⟩

/-- Counterexample to C1 as stated: the selector's gap threshold is not the
forwarded parameter itself (as seconds) but 60 times it.  With parameter 2
and the single high-confidence break at 100 we have 100 > 2, yet no leading
gap is produced (the code compares 100 against 2·60 = 120), and the scene
cut at 50 is consequently never selected. -/
theorem C1_counterexample :
    ¬(((0 : ℚ), (100 : ℚ)) ∈ selectorGaps 200 [⟨99, 101, 100⟩] 2 ↔
        (2 : ℚ) < 100) ∧
      find_optimal_breaks 200 [⟨99, 101, 100⟩] [] [⟨50⟩] 2
        = [⟨100, BreakType.black, Confidence.high⟩] := by
  constructor
  · norm_num [selectorGaps, highBreaks, sortBreaks, gapsOf, adjGaps,
      List.insertionSort]
  · norm_num [find_optimal_breaks, highBreaks, sortBreaks, gapsOf, adjGaps,
      candidatesOf, fillGap, minByKey, selectorGaps, List.insertionSort,
      List.orderedInsert, List.filterMap, List.filter]

/-- C1 (amended): with `maxGapSeconds = 60 * max_gap_minutes` (the selector
receives the CLI max-gap value in minutes and multiplies by 60), the gap set
is characterized exactly as the claim states: no high-confidence break gives
the single gap (0, duration); otherwise the leading gap (0, firstBreak)
is present iff firstBreak > maxGapSeconds and an adjacent-pair gap is
present iff the pair's distance exceeds maxGapSeconds. -/
theorem C1_gap_structure (duration max_gap_minutes : ℚ)
    (blacks : List BlackInterval) (g : ℚ × ℚ) :
    (highBreaks blacks = [] →
      selectorGaps duration blacks max_gap_minutes = [(0, duration)]) ∧
      ∀ b0 rest, highBreaks blacks = b0 :: rest →
        (g ∈ selectorGaps duration blacks max_gap_minutes ↔
          (g = (0, b0.timestamp) ∧ max_gap_minutes * 60 < b0.timestamp) ∨
            ∃ l1 prev next l2, b0 :: rest = l1 ++ prev :: next :: l2 ∧
              g = (prev.timestamp, next.timestamp) ∧
              max_gap_minutes * 60 < next.timestamp - prev.timestamp) := by
  constructor
  · intro h
    simp only [selectorGaps, h, gapsOf_nil]
  · intro b0 rest h
    simp only [selectorGaps, h]
    exact mem_gapsOf_cons

/-- Witness for C1: with no blacks the single gap is (0, duration); with
breaks at 50 and 1000 and a 60-second threshold the pair (50, 1000) is a
gap. -/
theorem C1_gap_structure_witness :
    selectorGaps 7 ([] : List BlackInterval) 3 = [(0, 7)] ∧
      ((50 : ℚ), (1000 : ℚ)) ∈
        selectorGaps 2000 [⟨40, 60, 50⟩, ⟨990, 1010, 1000⟩] 1 :=
  ⟨(C1_gap_structure 7 3 [] (0, 0)).1 rfl,
    ((C1_gap_structure 2000 1 [⟨40, 60, 50⟩, ⟨990, 1010, 1000⟩]
          (50, 1000)).2
        ⟨50, BreakType.black, Confidence.high⟩
        [⟨1000, BreakType.black, Confidence.high⟩]
        (by
          norm_num [highBreaks, sortBreaks, bpLE, List.insertionSort,
            List.orderedInsert])).mpr
      (Or.inr ⟨[], ⟨50, BreakType.black, Confidence.high⟩,
        ⟨1000, BreakType.black, Confidence.high⟩, [], rfl, rfl,
        by norm_num⟩)⟩

/-- C8: the chapter document has exactly N+1 chapters: chapter j+1 starts
at the j-th element of `0 :: timestamps`, ends at the j-th element of
`timestamps ++ [duration]` (both scaled to milliseconds, truncated), and is
titled "Chapter (j+1)". -/
theorem C8_chapter_document (break_points : List BreakPoint)
    (duration : ℚ) :
    (buildChapterDocument break_points duration).length
        = break_points.length + 1 ∧
      ∀ j, j ≤ break_points.length →
        (buildChapterDocument break_points duration).getD j default =
          ⟨pyInt (((0 : ℚ) ::
              break_points.map BreakPoint.timestamp).getD j 0 * 1000),
           pyInt ((break_points.map BreakPoint.timestamp
              ++ [duration]).getD j 0 * 1000),
           "Chapter " ++ toString (j + 1)⟩ := by
  constructor
  · exact chaptersGo_length duration break_points 0 1
  · intro j hj
    have h := chaptersGo_getD duration break_points 0 1 j hj
    rw [buildChapterDocument, h, Nat.add_comm 1 j]

/-- Witness for C8: breaks at 30 and 90 with duration 120 give the three
chapters (0,30),(30,90),(90,120) in milliseconds with 1-based titles. -/
theorem C8_chapter_document_witness :
    buildChapterDocument
        [⟨30, BreakType.scene, Confidence.medium⟩,
          ⟨90, BreakType.black, Confidence.high⟩] 120
      = [⟨0, 30000, "Chapter 1"⟩, ⟨30000, 90000, "Chapter 2"⟩,
          ⟨90000, 120000, "Chapter 3"⟩] ∧
      (buildChapterDocument
          [⟨30, BreakType.scene, Confidence.medium⟩,
            ⟨90, BreakType.black, Confidence.high⟩] 120).getD 1 default =
        ⟨pyInt (((0 : ℚ) ::
            [(⟨30, BreakType.scene, Confidence.medium⟩ : BreakPoint),
              ⟨90, BreakType.black, Confidence.high⟩].map
              BreakPoint.timestamp).getD 1 0 * 1000),
         pyInt (([(⟨30, BreakType.scene, Confidence.medium⟩ : BreakPoint),
              ⟨90, BreakType.black, Confidence.high⟩].map
              BreakPoint.timestamp ++ [120]).getD 1 0 * 1000),
         "Chapter " ++ toString (1 + 1)⟩ :=
  ⟨by
    norm_num [buildChapterDocument, chaptersGo, pyInt]
    exact ⟨rfl, rfl, rfl⟩,
    (C8_chapter_document
        [⟨30, BreakType.scene, Confidence.medium⟩,
          ⟨90, BreakType.black, Confidence.high⟩] 120).2 1 (by norm_num)⟩

end CMThingy
